import Mathlib

/-!
Verification of the fingerprinting and diffing engine of a file-integrity
monitor (`monitor.py`).  The Python source is shallowly embedded: paths are
lists of name components, baselines are association lists from path strings
to fingerprint records, the filesystem is a finite tree, and the glob
matcher of the standard library (`fnmatch`) is an explicit function
parameter.  All definitions are executable.
-/

namespace Fim

/-! ## Lexicographic order on strings

Python's `sorted` on path strings orders by code points.  `charsLt` is the
textbook lexicographic order on the underlying character lists; `strLe` is
its reflexive negation, used as the sorting relation. -/

def charsLt : List Char → List Char → Bool
  | [], [] => false
  | [], _ :: _ => true
  | _ :: _, [] => false
  | a :: as, b :: bs =>
    if a.toNat < b.toNat then true
    else if b.toNat < a.toNat then false
    else charsLt as bs

def strLt (a b : String) : Bool := charsLt a.data b.data

def strLe (a b : String) : Bool := !(strLt b a)

/-- `sorted` of Python over strings: a stable sort for the code-point order. -/
def sortStr (l : List String) : List String :=
  List.insertionSort (fun a b => strLe a b = true) l

theorem charsLt_asymm : ∀ {a b : List Char},
    charsLt a b = true → charsLt b a = false := by
  intro a
  induction a with
  | nil => intro b h; cases b <;> simp_all [charsLt]
  | cons x xs ih =>
    intro b h
    cases b with
    | nil => simp [charsLt] at h
    | cons y ys =>
      simp only [charsLt] at h ⊢
      by_cases h1 : x.toNat < y.toNat
      · have h2 : ¬ y.toNat < x.toNat := Nat.lt_asymm h1
        simp [h1, h2]
      · by_cases h2 : y.toNat < x.toNat
        · simp [h1, h2] at h
        · simp [h1, h2] at h ⊢
          exact ih h

theorem charsLt_connex : ∀ {a b : List Char},
    charsLt a b = false → charsLt b a = false → a = b := by
  intro a
  induction a with
  | nil => intro b h1 h2; cases b <;> simp_all [charsLt]
  | cons x xs ih =>
    intro b h1 h2
    cases b with
    | nil => simp [charsLt] at h2
    | cons y ys =>
      simp only [charsLt] at h1 h2
      by_cases hxy : x.toNat < y.toNat
      · simp [hxy] at h1
      · by_cases hyx : y.toNat < x.toNat
        · simp [hyx, Nat.lt_asymm hyx] at h2
        · simp [hxy, hyx] at h1 h2
          have hval : x.toNat = y.toNat := Nat.le_antisymm
            (Nat.le_of_not_lt hyx) (Nat.le_of_not_lt hxy)
          have hx : x = y := Char.eq_of_val_eq (UInt32.toNat.inj hval)
          rw [hx, ih h1 h2]

theorem charsLt_trans : ∀ {a b c : List Char},
    charsLt a b = true → charsLt b c = true → charsLt a c = true := by
  intro a
  induction a with
  | nil =>
    intro b c h1 h2
    cases b with
    | nil => simp [charsLt] at h1
    | cons y ys => cases c with
      | nil => simp [charsLt] at h2
      | cons z zs => simp [charsLt]
  | cons x xs ih =>
    intro b c h1 h2
    cases b with
    | nil => simp [charsLt] at h1
    | cons y ys =>
      cases c with
      | nil => simp [charsLt] at h2
      | cons z zs =>
        simp only [charsLt] at h1 h2 ⊢
        by_cases hxy : x.toNat < y.toNat
        · by_cases hyz : y.toNat < z.toNat
          · simp [Nat.lt_trans hxy hyz]
          · by_cases hzy : z.toNat < y.toNat
            · simp [hyz, hzy] at h2
            · have : y.toNat = z.toNat := Nat.le_antisymm
                (Nat.le_of_not_lt hzy) (Nat.le_of_not_lt hyz)
              simp [this] at hxy
              simp [hxy]
        · by_cases hyx : y.toNat < x.toNat
          · simp [hxy, hyx] at h1
          · have hxey : x.toNat = y.toNat := Nat.le_antisymm
              (Nat.le_of_not_lt hyx) (Nat.le_of_not_lt hxy)
            simp [hxy, hyx] at h1
            by_cases hyz : y.toNat < z.toNat
            · simp [hxey, hyz]
            · by_cases hzy : z.toNat < y.toNat
              · simp [hyz, hzy] at h2
              · simp [hyz, hzy] at h2
                simp [hxey, hyz, hzy]
                exact ih h1 h2

theorem strLe_total (a b : String) : strLe a b = true ∨ strLe b a = true := by
  by_cases h : charsLt b.data a.data = true
  · right
    simp [strLe, strLt, charsLt_asymm h]
  · left
    simp [strLe, strLt]
    simpa using h

theorem strLe_trans {a b c : String} (h1 : strLe a b = true)
    (h2 : strLe b c = true) : strLe a c = true := by
  simp only [strLe, strLt, Bool.not_eq_true'] at h1 h2 ⊢
  cases hca : charsLt c.data a.data
  · rfl
  · exfalso
    cases hab : charsLt a.data b.data
    · have hd := charsLt_connex hab h1
      rw [hd] at hca
      simp [hca] at h2
    · have h3 := charsLt_trans hca hab
      simp [h3] at h2

theorem strLe_antisymm {a b : String} (h1 : strLe a b = true)
    (h2 : strLe b a = true) : a = b := by
  simp only [strLe, strLt, Bool.not_eq_true'] at h1 h2
  have hd : a.data = b.data := charsLt_connex h2 h1
  exact congrArg String.mk hd

theorem strLt_of_le_of_ne {a b : String} (h1 : strLe a b = true)
    (h2 : a ≠ b) : strLt a b = true := by
  cases hv : strLt a b
  · exfalso
    apply h2
    apply strLe_antisymm h1
    simp [strLe, hv]
  · rfl

instance : IsTotal String (fun a b => strLe a b = true) := ⟨strLe_total⟩

instance : IsTrans String (fun a b => strLe a b = true) := ⟨fun _ _ _ => strLe_trans⟩

instance : IsAntisymm String (fun a b => strLe a b = true) := ⟨fun _ _ => strLe_antisymm⟩

theorem mem_sortStr {k : String} {l : List String} : k ∈ sortStr l ↔ k ∈ l :=
  (List.perm_insertionSort _ l).mem_iff

theorem nodup_sortStr {l : List String} (h : l.Nodup) : (sortStr l).Nodup :=
  ((List.perm_insertionSort _ l).nodup_iff).mpr h

theorem sorted_le_sortStr (l : List String) :
    (sortStr l).Sorted (fun a b => strLe a b = true) :=
  List.sorted_insertionSort _ l

theorem sorted_lt_sortStr {l : List String} (h : l.Nodup) :
    (sortStr l).Sorted (fun a b => strLt a b = true) := by
  have hs := sorted_le_sortStr l
  have hn : (sortStr l).Nodup := nodup_sortStr h
  exact List.Pairwise.imp (fun hab => strLt_of_le_of_ne hab.1 hab.2)
    (List.Pairwise.and hs hn)

/-! ## Data model and diff engine

`FileInfo` embeds the dataclass of `monitor.py` (hash, size, mtime, mode);
`mtime` is the fractional epoch timestamp, modelled as a rational since the
engine only ever compares it for equality.  A `Baseline` is the dict
`path string → record`, an association list whose first binding wins, as a
dict lookup does.  `diff_states` mirrors the source line by line: the key
sets are the deduplicated key lists, the three iterations run over sorted
lists, and `classify` is the classification loop over the intersection. -/

structure FileInfo where
  hash : String
  size : Nat
  mtime : ℚ
  mode : Option Nat
deriving DecidableEq

abbrev Baseline := List (String × FileInfo)

def lookupB : Baseline → String → Option FileInfo
  | [], _ => none
  | (k, v) :: rest, key => if k = key then some v else lookupB rest key

def keysB (b : Baseline) : List String := b.map Prod.fst

/-- `set(d.keys())` of Python: the distinct keys. -/
def keySet (b : Baseline) : List String := (keysB b).dedup

/-- The metadata-drift test of `diff_states` (sizes, mtimes under the strict
flag, modes; two absent modes compare equal). -/
def metaDiffers (strict : Bool) (p c : FileInfo) : Bool :=
  decide (p.size ≠ c.size) || (strict && decide (p.mtime ≠ c.mtime)) ||
    decide (p.mode ≠ c.mode)

/-- The loop of `diff_states` over the sorted intersection: appends to
`modified` when the hashes differ, else to `meta_changed` when the metadata
drifts. -/
def classify (prev curr : Baseline) (strict : Bool) :
    List String → List String × List String
  | [] => ([], [])
  | path :: rest =>
    let r := classify prev curr strict rest
    match lookupB prev path, lookupB curr path with
    | some p, some c =>
      if p.hash ≠ c.hash then (path :: r.1, r.2)
      else if metaDiffers strict p c then (r.1, path :: r.2)
      else r
    | _, _ => r

structure DiffResult where
  added : List String
  removed : List String
  modified : List String
  meta_changed : List String
deriving DecidableEq

def diff_states (prev curr : Baseline) (strict_mtime : Bool) : DiffResult :=
  let prev_keys := keySet prev
  let curr_keys := keySet curr
  let added := sortStr (curr_keys.filter fun k => decide (k ∉ prev_keys))
  let removed := sortStr (prev_keys.filter fun k => decide (k ∉ curr_keys))
  let inter := sortStr (prev_keys.filter fun k => decide (k ∈ curr_keys))
  let mm := classify prev curr strict_mtime inter
  { added := added, removed := removed, modified := mm.1, meta_changed := mm.2 }

/-- The per-key test behind membership in `modified`. -/
def modP (prev curr : Baseline) (k : String) : Bool :=
  match lookupB prev k, lookupB curr k with
  | some p, some c => decide (p.hash ≠ c.hash)
  | _, _ => false

/-- The per-key test behind membership in `meta_changed`. -/
def metaP (prev curr : Baseline) (strict : Bool) (k : String) : Bool :=
  match lookupB prev k, lookupB curr k with
  | some p, some c => decide (p.hash = c.hash) && metaDiffers strict p c
  | _, _ => false

theorem classify_eq (prev curr : Baseline) (s : Bool) (l : List String) :
    classify prev curr s l =
      (l.filter (modP prev curr), l.filter (metaP prev curr s)) := by
  induction l with
  | nil => rfl
  | cons k rest ih =>
    cases hp : lookupB prev k with
    | none => simp [classify, hp, modP, metaP, List.filter_cons, ih]
    | some p =>
      cases hc : lookupB curr k with
      | none => simp [classify, hp, hc, modP, metaP, List.filter_cons, ih]
      | some c =>
        by_cases hh : p.hash = c.hash
        · by_cases hm : metaDiffers s p c = true
          · simp [classify, hp, hc, modP, metaP, List.filter_cons, ih, hh, hm]
          · simp [classify, hp, hc, modP, metaP, List.filter_cons, ih, hh, hm]
        · simp [classify, hp, hc, modP, metaP, List.filter_cons, ih, hh]

theorem mem_keysB_iff_lookupB {b : Baseline} {k : String} :
    k ∈ keysB b ↔ ∃ v, lookupB b k = some v := by
  induction b with
  | nil => simp [keysB, lookupB]
  | cons kv rest ih =>
    obtain ⟨k', v'⟩ := kv
    by_cases h : k' = k
    · subst h
      simp [keysB, lookupB]
    · simp only [keysB, List.map_cons, List.mem_cons, lookupB, if_neg h]
      constructor
      · rintro (hk | hk)
        · exact absurd hk.symm h
        · exact ih.mp hk
      · intro hk
        exact Or.inr (ih.mpr hk)

theorem mem_keySet_iff {b : Baseline} {k : String} :
    k ∈ keySet b ↔ k ∈ keysB b := List.mem_dedup

theorem mem_added_iff {prev curr : Baseline} {s : Bool} {k : String} :
    k ∈ (diff_states prev curr s).added ↔ k ∈ keysB curr ∧ k ∉ keysB prev := by
  simp [diff_states, mem_sortStr, List.mem_filter, mem_keySet_iff]

theorem mem_removed_iff {prev curr : Baseline} {s : Bool} {k : String} :
    k ∈ (diff_states prev curr s).removed ↔ k ∈ keysB prev ∧ k ∉ keysB curr := by
  simp [diff_states, mem_sortStr, List.mem_filter, mem_keySet_iff]

theorem modP_eq_true_iff {prev curr : Baseline} {k : String} :
    modP prev curr k = true ↔
      ∃ p c, lookupB prev k = some p ∧ lookupB curr k = some c ∧
        p.hash ≠ c.hash := by
  unfold modP
  cases hp : lookupB prev k with
  | none => simp
  | some p =>
    cases hc : lookupB curr k with
    | none => simp
    | some c => simp

theorem metaP_eq_true_iff {prev curr : Baseline} {s : Bool} {k : String} :
    metaP prev curr s k = true ↔
      ∃ p c, lookupB prev k = some p ∧ lookupB curr k = some c ∧
        p.hash = c.hash ∧
        (p.size ≠ c.size ∨ (s = true ∧ p.mtime ≠ c.mtime) ∨
          p.mode ≠ c.mode) := by
  unfold metaP metaDiffers
  cases hp : lookupB prev k with
  | none => simp
  | some p =>
    cases hc : lookupB curr k with
    | none => simp
    | some c =>
      cases s
      all_goals simp
      all_goals tauto

theorem modified_eq (prev curr : Baseline) (s : Bool) :
    (diff_states prev curr s).modified =
      (sortStr ((keySet prev).filter fun k =>
        decide (k ∈ keySet curr))).filter (modP prev curr) := by
  simp [diff_states, classify_eq]

theorem meta_changed_eq (prev curr : Baseline) (s : Bool) :
    (diff_states prev curr s).meta_changed =
      (sortStr ((keySet prev).filter fun k =>
        decide (k ∈ keySet curr))).filter (metaP prev curr s) := by
  simp [diff_states, classify_eq]

theorem mem_modified_iff {prev curr : Baseline} {s : Bool} {k : String} :
    k ∈ (diff_states prev curr s).modified ↔
      ∃ p c, lookupB prev k = some p ∧ lookupB curr k = some c ∧
        p.hash ≠ c.hash := by
  rw [modified_eq]
  rw [← modP_eq_true_iff]
  constructor
  · intro h
    exact (List.mem_filter.mp h).2
  · intro h
    apply List.mem_filter.mpr
    refine ⟨mem_sortStr.mpr (List.mem_filter.mpr ⟨?_, ?_⟩), h⟩
    · obtain ⟨p, c, hp, _, _⟩ := modP_eq_true_iff.mp h
      exact mem_keySet_iff.mpr (mem_keysB_iff_lookupB.mpr ⟨p, hp⟩)
    · obtain ⟨p, c, _, hc, _⟩ := modP_eq_true_iff.mp h
      simpa [mem_keySet_iff] using mem_keysB_iff_lookupB.mpr ⟨c, hc⟩

theorem mem_meta_changed_iff {prev curr : Baseline} {s : Bool} {k : String} :
    k ∈ (diff_states prev curr s).meta_changed ↔
      ∃ p c, lookupB prev k = some p ∧ lookupB curr k = some c ∧
        p.hash = c.hash ∧
        (p.size ≠ c.size ∨ (s = true ∧ p.mtime ≠ c.mtime) ∨
          p.mode ≠ c.mode) := by
  rw [meta_changed_eq]
  rw [← metaP_eq_true_iff]
  constructor
  · intro h
    exact (List.mem_filter.mp h).2
  · intro h
    apply List.mem_filter.mpr
    refine ⟨mem_sortStr.mpr (List.mem_filter.mpr ⟨?_, ?_⟩), h⟩
    · obtain ⟨p, c, hp, _, _⟩ := metaP_eq_true_iff.mp h
      exact mem_keySet_iff.mpr (mem_keysB_iff_lookupB.mpr ⟨p, hp⟩)
    · obtain ⟨p, c, _, hc, _⟩ := metaP_eq_true_iff.mp h
      simpa [mem_keySet_iff] using mem_keysB_iff_lookupB.mpr ⟨c, hc⟩

theorem added_sorted_nodup (prev curr : Baseline) (s : Bool) :
    (diff_states prev curr s).added.Sorted (fun a b => strLt a b = true) := by
  have hn : ((keySet curr).filter fun k => decide (k ∉ keySet prev)).Nodup :=
    List.Nodup.filter _ (List.nodup_dedup _)
  simpa [diff_states] using sorted_lt_sortStr hn

theorem removed_sorted_nodup (prev curr : Baseline) (s : Bool) :
    (diff_states prev curr s).removed.Sorted (fun a b => strLt a b = true) := by
  have hn : ((keySet prev).filter fun k => decide (k ∉ keySet curr)).Nodup :=
    List.Nodup.filter _ (List.nodup_dedup _)
  simpa [diff_states] using sorted_lt_sortStr hn

theorem inter_sorted_nodup (prev curr : Baseline) :
    (sortStr ((keySet prev).filter fun k =>
      decide (k ∈ keySet curr))).Sorted (fun a b => strLt a b = true) :=
  sorted_lt_sortStr (List.Nodup.filter _ (List.nodup_dedup _))

theorem modified_sorted_nodup (prev curr : Baseline) (s : Bool) :
    (diff_states prev curr s).modified.Sorted (fun a b => strLt a b = true) := by
  rw [modified_eq]
  exact List.Sorted.filter _ (inter_sorted_nodup prev curr)

theorem meta_changed_sorted_nodup (prev curr : Baseline) (s : Bool) :
    (diff_states prev curr s).meta_changed.Sorted
      (fun a b => strLt a b = true) := by
  rw [meta_changed_eq]
  exact List.Sorted.filter _ (inter_sorted_nodup prev curr)

theorem strLt_irrefl (a : String) : strLt a a = false := by
  cases hv : strLt a a
  · rfl
  · simp only [strLt] at hv
    exact absurd ((charsLt_asymm hv).symm.trans hv) Bool.false_ne_true

theorem nodup_of_sorted_strLt {l : List String}
    (h : l.Sorted (fun a b => strLt a b = true)) : l.Nodup := by
  refine List.Pairwise.imp ?_ h
  intro a b hab he
  subst he
  rw [strLt_irrefl a] at hab
  exact Bool.false_ne_true hab

theorem modP_comm (A B : Baseline) (k : String) : modP A B k = modP B A k := by
  unfold modP
  cases lookupB A k <;> cases lookupB B k <;> simp [ne_comm]

theorem metaP_comm (A B : Baseline) (s : Bool) (k : String) :
    metaP A B s k = metaP B A s k := by
  unfold metaP metaDiffers
  cases lookupB A k <;> cases lookupB B k <;> simp [ne_comm, eq_comm]

theorem inter_comm (A B : Baseline) :
    sortStr ((keySet A).filter fun k => decide (k ∈ keySet B)) =
      sortStr ((keySet B).filter fun k => decide (k ∈ keySet A)) := by
  have n1 : (sortStr ((keySet A).filter fun k => decide (k ∈ keySet B))).Nodup :=
    nodup_sortStr (List.Nodup.filter _ (List.nodup_dedup _))
  have n2 : (sortStr ((keySet B).filter fun k => decide (k ∈ keySet A))).Nodup :=
    nodup_sortStr (List.Nodup.filter _ (List.nodup_dedup _))
  have hm : ∀ k, k ∈ sortStr ((keySet A).filter fun k => decide (k ∈ keySet B)) ↔
      k ∈ sortStr ((keySet B).filter fun k => decide (k ∈ keySet A)) := by
    intro k
    simp [mem_sortStr, List.mem_filter, and_comm]
  exact List.eq_of_perm_of_sorted
    ((List.perm_ext_iff_of_nodup n1 n2).mpr hm)
    (sorted_le_sortStr _) (sorted_le_sortStr _)

/-! ## Claim theorems about the diff engine -/

/-- C1: for every pair of baselines and every strict-mtime flag,
`diff_states` returns: `added` = the keys of `curr` not in `prev`, sorted
lexicographically; `removed` = the keys of `prev` not in `curr`, sorted
lexicographically; and, over the lexicographically ordered intersection, a
key lands in `modified` iff the two records' hashes differ, and otherwise
lands in `meta_changed` iff the sizes differ, or the flag is set and the
mtimes differ, or the modes differ (two absent modes comparing equal, which
the `Option` equality on `mode` gives). -/
theorem C1_diff_states_spec (prev curr : Baseline) (s : Bool) :
    ((diff_states prev curr s).added.Sorted (fun a b => strLt a b = true) ∧
      ∀ k, k ∈ (diff_states prev curr s).added ↔
        (k ∈ keysB curr ∧ k ∉ keysB prev)) ∧
    ((diff_states prev curr s).removed.Sorted (fun a b => strLt a b = true) ∧
      ∀ k, k ∈ (diff_states prev curr s).removed ↔
        (k ∈ keysB prev ∧ k ∉ keysB curr)) ∧
    ((diff_states prev curr s).modified.Sorted (fun a b => strLt a b = true) ∧
      ∀ k, k ∈ (diff_states prev curr s).modified ↔
        ∃ p c, lookupB prev k = some p ∧ lookupB curr k = some c ∧
          p.hash ≠ c.hash) ∧
    ((diff_states prev curr s).meta_changed.Sorted
        (fun a b => strLt a b = true) ∧
      ∀ k, k ∈ (diff_states prev curr s).meta_changed ↔
        ∃ p c, lookupB prev k = some p ∧ lookupB curr k = some c ∧
          p.hash = c.hash ∧
          (p.size ≠ c.size ∨ (s = true ∧ p.mtime ≠ c.mtime) ∨
            p.mode ≠ c.mode)) := by
  refine ⟨⟨added_sorted_nodup prev curr s, fun k => mem_added_iff⟩,
    ⟨removed_sorted_nodup prev curr s, fun k => mem_removed_iff⟩,
    ⟨modified_sorted_nodup prev curr s, fun k => mem_modified_iff⟩,
    ⟨meta_changed_sorted_nodup prev curr s, fun k => mem_meta_changed_iff⟩⟩

/-- C3: each path appears in at most one of the four output sequences of
`diff_states`; a path present in both baselines with no triggering
difference appears in none of them; and within each sequence no path
appears twice. -/
theorem C3_diff_states_partition (prev curr : Baseline) (s : Bool) :
    (∀ k, k ∈ (diff_states prev curr s).added →
      k ∉ (diff_states prev curr s).removed) ∧
    (∀ k, k ∈ (diff_states prev curr s).added →
      k ∉ (diff_states prev curr s).modified) ∧
    (∀ k, k ∈ (diff_states prev curr s).added →
      k ∉ (diff_states prev curr s).meta_changed) ∧
    (∀ k, k ∈ (diff_states prev curr s).removed →
      k ∉ (diff_states prev curr s).modified) ∧
    (∀ k, k ∈ (diff_states prev curr s).removed →
      k ∉ (diff_states prev curr s).meta_changed) ∧
    (∀ k, k ∈ (diff_states prev curr s).modified →
      k ∉ (diff_states prev curr s).meta_changed) ∧
    (∀ k p c, lookupB prev k = some p → lookupB curr k = some c →
      p.hash = c.hash → p.size = c.size →
      (s = true → p.mtime = c.mtime) → p.mode = c.mode →
      k ∉ (diff_states prev curr s).added ∧
      k ∉ (diff_states prev curr s).removed ∧
      k ∉ (diff_states prev curr s).modified ∧
      k ∉ (diff_states prev curr s).meta_changed) ∧
    ((diff_states prev curr s).added.Nodup ∧
      (diff_states prev curr s).removed.Nodup ∧
      (diff_states prev curr s).modified.Nodup ∧
      (diff_states prev curr s).meta_changed.Nodup) := by
  refine ⟨?_, ?_, ?_, ?_, ?_, ?_, ?_, ?_, ?_, ?_, ?_⟩
  · intro k ha hr
    obtain ⟨_, hnp⟩ := mem_added_iff.mp ha
    exact hnp (mem_removed_iff.mp hr).1
  · intro k ha hm
    obtain ⟨_, hnp⟩ := mem_added_iff.mp ha
    obtain ⟨p, c, hp, _, _⟩ := mem_modified_iff.mp hm
    exact hnp (mem_keysB_iff_lookupB.mpr ⟨p, hp⟩)
  · intro k ha hm
    obtain ⟨_, hnp⟩ := mem_added_iff.mp ha
    obtain ⟨p, c, hp, _, _⟩ := mem_meta_changed_iff.mp hm
    exact hnp (mem_keysB_iff_lookupB.mpr ⟨p, hp⟩)
  · intro k hr hm
    obtain ⟨_, hnc⟩ := mem_removed_iff.mp hr
    obtain ⟨p, c, _, hc, _⟩ := mem_modified_iff.mp hm
    exact hnc (mem_keysB_iff_lookupB.mpr ⟨c, hc⟩)
  · intro k hr hm
    obtain ⟨_, hnc⟩ := mem_removed_iff.mp hr
    obtain ⟨p, c, _, hc, _⟩ := mem_meta_changed_iff.mp hm
    exact hnc (mem_keysB_iff_lookupB.mpr ⟨c, hc⟩)
  · intro k hm hmc
    obtain ⟨p, c, hp, hc, hne⟩ := mem_modified_iff.mp hm
    obtain ⟨p', c', hp', hc', heq, _⟩ := mem_meta_changed_iff.mp hmc
    rw [hp] at hp'
    rw [hc] at hc'
    cases hp'
    cases hc'
    exact hne heq
  · intro k p c hp hc hh hs hm hmo
    refine ⟨?_, ?_, ?_, ?_⟩
    · intro ha
      exact (mem_added_iff.mp ha).2 (mem_keysB_iff_lookupB.mpr ⟨p, hp⟩)
    · intro hr
      exact (mem_removed_iff.mp hr).2 (mem_keysB_iff_lookupB.mpr ⟨c, hc⟩)
    · intro hmem
      obtain ⟨p', c', hp', hc', hne⟩ := mem_modified_iff.mp hmem
      rw [hp] at hp'
      rw [hc] at hc'
      cases hp'
      cases hc'
      exact hne hh
    · intro hmem
      obtain ⟨p', c', hp', hc', _, hd⟩ := mem_meta_changed_iff.mp hmem
      rw [hp] at hp'
      rw [hc] at hc'
      cases hp'
      cases hc'
      rcases hd with h | ⟨hb, h⟩ | h
      · exact h hs
      · exact h (hm hb)
      · exact h hmo
  · exact nodup_of_sorted_strLt (added_sorted_nodup prev curr s)
  · exact nodup_of_sorted_strLt (removed_sorted_nodup prev curr s)
  · exact nodup_of_sorted_strLt (modified_sorted_nodup prev curr s)
  · exact nodup_of_sorted_strLt (meta_changed_sorted_nodup prev curr s)

/-- C4 (amended): for a path present in both baselines whose records have
identical hash, identical size and identical mode but different mtime,
`diff_states` places the path in `meta_changed` iff `strict_mtime` is true.
(The original claim omitted the mode condition: with differing modes the
path lands in `meta_changed` even when the flag is off.) -/
theorem C4_strict_mtime_gating (prev curr : Baseline) (s : Bool) (k : String)
    (p c : FileInfo) (hp : lookupB prev k = some p)
    (hc : lookupB curr k = some c) (hhash : p.hash = c.hash)
    (hsize : p.size = c.size) (hmode : p.mode = c.mode)
    (hmtime : p.mtime ≠ c.mtime) :
    k ∈ (diff_states prev curr s).meta_changed ↔ s = true := by
  rw [mem_meta_changed_iff]
  constructor
  · rintro ⟨p', c', hp', hc', _, hd⟩
    rw [hp] at hp'
    rw [hc] at hc'
    cases hp'
    cases hc'
    rcases hd with h | ⟨hb, _⟩ | h
    · exact absurd hsize h
    · exact hb
    · exact absurd hmode h
  · intro hb
    exact ⟨p, c, hp, hc, hhash, Or.inr (Or.inl ⟨hb, hmtime⟩)⟩

/-- C4 witness: the amended gating theorem applied at a concrete pair of
one-entry baselines whose records differ only in mtime. -/
theorem C4_strict_mtime_gating_witness :
    "/a" ∈ (diff_states [("/a", ⟨"h", 1, 0, some 420⟩)]
      [("/a", ⟨"h", 1, 2, some 420⟩)] true).meta_changed :=
  (C4_strict_mtime_gating [("/a", ⟨"h", 1, 0, some 420⟩)]
    [("/a", ⟨"h", 1, 2, some 420⟩)] true "/a" ⟨"h", 1, 0, some 420⟩
    ⟨"h", 1, 2, some 420⟩ rfl rfl rfl rfl rfl (by decide)).mpr rfl

/-- C4 counterexample: the claim as frozen is false.  With identical hash
and size but differing modes and mtimes, the path is in `meta_changed`
although `strict_mtime` is false, so "in `meta_changed` iff the flag is
true" fails at this input. -/
theorem C4_counterexample :
    ("/a" ∈ (diff_states [("/a", ⟨"h", 1, 0, some 420⟩)]
      [("/a", ⟨"h", 1, 1, some 384⟩)] false).meta_changed) ∧
    (false = true → False) := by
  decide

/-- C8: the `added` sequence of `diff_states A B` equals the `removed`
sequence of `diff_states B A`, and conversely, for any flag. -/
theorem C8_added_removed_swap (A B : Baseline) (s : Bool) :
    (diff_states A B s).added = (diff_states B A s).removed ∧
    (diff_states A B s).removed = (diff_states B A s).added :=
  ⟨rfl, rfl⟩

/-- C10: `modified` and `meta_changed` of `diff_states` are symmetric in
the two baselines: every per-key test used for these classifications (hash,
size, mtime, mode inequality) is symmetric in the two records. -/
theorem C10_modified_meta_symmetric (A B : Baseline) (s : Bool) :
    (diff_states A B s).modified = (diff_states B A s).modified ∧
    (diff_states A B s).meta_changed = (diff_states B A s).meta_changed := by
  constructor
  · rw [modified_eq, modified_eq, inter_comm]
    exact List.filter_congr fun k _ => modP_comm A B k
  · rw [meta_changed_eq, meta_changed_eq, inter_comm]
    exact List.filter_congr fun k _ => metaP_comm A B s k

/-! ## Filesystem model, walker, extractor and builder

Paths are lists of name components of a resolved absolute path (Python's
`Path.parts` without the leading `"/"`); `pathStr` renders `str(path)`.
The filesystem is a finite tree without symbolic links; a file node carries
its bytes, mtime, raw `st_mode`, and an optional fault making `stat`/`open`
raise in the `OSError` family (a permission or race failure).  The glob
matcher `fnmatch.fnmatch` and the digest table of `hashlib` live outside
this repository, so they enter as explicit parameters. -/

inductive IOFault where
  | permission
  | notFound
  | generic
deriving DecidableEq

/-- Python exception classes the engine can see: `ValueError` from an
unsupported digest name, and the `OSError` family (`PermissionError` and
`FileNotFoundError` are its subclasses) from file-system access. -/
inductive PyErr where
  | valueError (msg : String)
  | osError (kind : IOFault)
deriving DecidableEq

deriving instance DecidableEq for Except

structure FileData where
  content : List Nat
  mtime : ℚ
  st_mode : Nat
  fault : Option IOFault
deriving DecidableEq

mutual
inductive Node where
  | file (d : FileData)
  | dir (entries : Entries)

/-- The ordered entry list of a directory (name, node), as `os.scandir`
returns it. -/
inductive Entries where
  | nil
  | cons (name : String) (child : Node) (rest : Entries)
end

def Entries.toList : Entries → List (String × Node)
  | .nil => []
  | .cons n c r => (n, c) :: Entries.toList r

def Entries.ofList : List (String × Node) → Entries
  | [] => .nil
  | (n, c) :: r => .cons n c (Entries.ofList r)

def lookupNode : Node → List String → Option Node
  | nd, [] => some nd
  | .file _, _ :: _ => none
  | .dir entries, n :: rest =>
    match entries.toList.lookup n with
    | some child => lookupNode child rest
    | none => none

/-- `part.startswith('.')` of Python. -/
def startsDot (n : String) : Bool := n.data.head? == some '.'

/-- `_is_hidden`: hidden iff any component of the path starts with `'.'`
(the leading `"/"` of `Path.parts` never does). -/
def is_hidden (p : List String) : Bool := p.any startsDot

def joinChars : List (List Char) → List Char
  | [] => []
  | c :: cs => '/' :: (c ++ joinChars cs)

/-- `str(path)` for a resolved absolute path given by its components. -/
def pathStr (p : List String) : String := ⟨joinChars (p.map String.data)⟩

/-- `path.name` of Python. -/
def baseName (p : List String) : String := p.getLastD ""

def relChars : List (List Char) → List Char
  | [] => []
  | [c] => c
  | c :: cs => c ++ '/' :: relChars cs

/-- `str(path.relative_to(root))` once `relative_to` has succeeded: the
remaining components joined by `"/"`, or `"."` when none remain. -/
def relStr (root p : List String) : String :=
  let rest := p.drop root.length
  if rest.isEmpty then "." else ⟨relChars (rest.map String.data)⟩

/-- `path.relative_to(root)` succeeds iff the root's components lead the
path's (both already resolved and absolute). -/
def isUnder : List String → List String → Bool
  | [], _ => true
  | _ :: _, [] => false
  | r :: rs, q :: qs => r == q && isUnder rs qs

/-- `_should_exclude`, with `fnmatch.fnmatch` (standard-library code, not
part of this repository) passed explicitly: `matcher s pat` decides whether
glob pattern `pat` matches string `s`.  The candidates are the base name,
the absolute path string, and the path relative to each root it lies
under. -/
def should_exclude (matcher : String → String → Bool) (p : List String)
    (patterns : List String) (roots : List (List String)) : Bool :=
  if patterns.isEmpty then false
  else
    let matchAny := fun (str : String) => patterns.any fun pat => matcher str pat
    if matchAny (baseName p) || matchAny (pathStr p) then true
    else roots.any fun root => isUnder root p && matchAny (relStr root p)

/-- The digest algorithms `hashlib` supports, and the digest function
itself, as an environment: both live outside this repository. -/
structure HashEnv where
  supported : List String
  digest : String → List Nat → String

/-- `hash_file`: `hashlib.new(algorithm)` first — an unsupported name
raises `ValueError("Unsupported hash algorithm: ...")` — then the chunked
binary read.  The 1 MiB chunk loop feeds the entire content to the
streaming digest, so its denotation is the digest of the full content; a
faulted or missing file makes the open/read raise in the `OSError`
family. -/
def hash_file (env : HashEnv) (fs : Node) (filepath : List String)
    (algorithm : String) : Except PyErr String :=
  if env.supported.contains algorithm then
    match lookupNode fs filepath with
    | some (.file d) =>
      match d.fault with
      | some f => .error (.osError f)
      | none => .ok (env.digest algorithm d.content)
    | _ => .error (.osError .notFound)
  else
    .error (.valueError ("Unsupported hash algorithm: " ++ algorithm))

/-- `FileInfo.from_path`: `p.stat()` first, then `hash_file`, then the
record; `size` and `mtime` come from the stat, and `mode` is
`stat.S_IMODE(st.st_mode)` (the low permission bits) only when
`track_perms`, absent otherwise. -/
def FileInfo.from_path (env : HashEnv) (fs : Node) (p : List String)
    (algorithm : String) (track_perms : Bool) : Except PyErr FileInfo :=
  match lookupNode fs p with
  | some (.file d) =>
    match d.fault with
    | some f => .error (.osError f)
    | none =>
      match hash_file env fs p algorithm with
      | .error e => .error e
      | .ok h =>
        .ok { hash := h, size := d.content.length, mtime := d.mtime,
              mode := if track_perms then some (d.st_mode % 4096) else none }
  | _ => .error (.osError .notFound)

def fileNamesOf (entries : List (String × Node)) : List String :=
  entries.filterMap fun e =>
    match e.2 with
    | .file _ => some e.1
    | .dir _ => none

/-- The subdirectory entries `os.walk` will recurse into, after the pruning
`dirnames[:] = [d for d in dirnames if not d.startswith('.')]` that
`iter_files` performs when `ignore_hidden` is set. -/
def childDirs (ignore_hidden : Bool) (entries : List (String × Node)) :
    List (String × Node) :=
  let ds := entries.filterMap fun e =>
    match e.2 with
    | .dir _ => some e
    | .file _ => none
  if ignore_hidden then ds.filter fun e => !(startsDot e.1) else ds

/-- `os.walk` from a node, top-down, with the hidden pruning of
`iter_files` applied to the recursion list: yields `(dirpath, filenames)`
for the directory itself, then recurses into each kept subdirectory in
order.  The fuel only bounds the recursion depth; `walkNode` passes the
node's size, which exceeds the tree's height, so the traversal is
complete. -/
def walkNodeAux (ignore_hidden : Bool) :
    Nat → List String → Node → List (List String × List String)
  | 0, _, _ => []
  | _ + 1, _, .file _ => []
  | fuel + 1, path, .dir entries =>
    (path, fileNamesOf entries.toList) ::
      (childDirs ignore_hidden entries.toList).flatMap fun e =>
        walkNodeAux ignore_hidden fuel (path ++ [e.1]) e.2

mutual
/-- A structural size of a tree, strictly larger than its height: the fuel
`walkNode` hands to `walkNodeAux`. -/
def nodeSize : Node → Nat
  | .file _ => 1
  | .dir entries => 1 + entriesSize entries

def entriesSize : Entries → Nat
  | .nil => 0
  | .cons _ child rest => 1 + nodeSize child + entriesSize rest
end

def walkNode (ignore_hidden : Bool) (path : List String) (nd : Node) :
    List (List String × List String) :=
  walkNodeAux ignore_hidden (nodeSize nd) path nd

theorem nodeSize_pos (nd : Node) : 1 ≤ nodeSize nd := by
  cases nd with
  | file d => exact le_refl 1
  | dir es => rw [nodeSize]; omega

theorem nodeSize_lt_of_mem : ∀ {es : Entries} {n : String} {c : Node},
    (n, c) ∈ es.toList → nodeSize c < nodeSize (.dir es)
  | .cons n' c' r, n, c, hm => by
    rw [Entries.toList, List.mem_cons] at hm
    rcases hm with heq | hm
    · cases heq
      rw [nodeSize, entriesSize]
      omega
    · have hrec := nodeSize_lt_of_mem hm
      rw [nodeSize] at hrec ⊢
      rw [entriesSize]
      omega



set_option linter.unusedVariables false in
/-- `iter_files`: the roots arrive already resolved (paths in the model are
canonical component lists, so `p.resolve()` is the identity).  A root that
is a regular file is yielded once under the hidden and exclusion filters;
a directory root is walked with hidden pruning, and every listed file name
is filtered by `_is_hidden`, then the exclusion matcher, then the `is_file`
probe (whose `OSError` would skip the entry — a model file node always
probes true).  The model has no symbolic links, so `follow_symlinks` has no
effect, exactly as `os.walk(..., followlinks=...)` has none on a link-free
tree; a nonexistent root yields nothing, as `os.walk` does. -/
def iter_files (fs : Node) (matcher : String → String → Bool)
    (paths : List (List String)) (excludes : List String)
    (follow_symlinks ignore_hidden : Bool) : List (List String) :=
  let roots := paths
  roots.flatMap fun root =>
    match lookupNode fs root with
    | none => []
    | some (.file _) =>
      if (!ignore_hidden || !is_hidden root) &&
          !should_exclude matcher root excludes roots then [root] else []
    | some (.dir entries) =>
      (walkNode ignore_hidden root (.dir entries)).flatMap fun df =>
        df.2.filterMap fun fname =>
          let fpath := df.1 ++ [fname]
          if ignore_hidden && is_hidden fpath then none
          else if should_exclude matcher fpath excludes roots then none
          else
            match lookupNode fs fpath with
            | some (.file _) => some fpath
            | _ => none

/-- The directories `os.walk` enters during `iter_files` (the `dirpath` of
each tuple it yields). -/
def iter_visited (fs : Node) (paths : List (List String))
    (ignore_hidden : Bool) : List (List String) :=
  paths.flatMap fun root =>
    match lookupNode fs root with
    | some (.dir entries) =>
      (walkNode ignore_hidden root (.dir entries)).map Prod.fst
    | _ => []

/-- `baseline[str(fpath)] = asdict(info)`: dict insertion, overwriting an
existing binding. -/
def dictInsert (b : Baseline) (k : String) (v : FileInfo) : Baseline :=
  if b.any fun kv => kv.1 == k then
    b.map fun kv => if kv.1 == k then (k, v) else kv
  else b ++ [(k, v)]

/-- The loop of `build_baseline`: fingerprint each yielded path; the clause
`except (PermissionError, FileNotFoundError, OSError)` catches exactly the
`OSError` family and skips that file, and any other exception
propagates. -/
def build_loop (env : HashEnv) (fs : Node) (algorithm : String)
    (track_perms : Bool) :
    List (List String) → Baseline → Except PyErr Baseline
  | [], acc => .ok acc
  | p :: rest, acc =>
    match FileInfo.from_path env fs p algorithm track_perms with
    | .ok info =>
      build_loop env fs algorithm track_perms rest
        (dictInsert acc (pathStr p) info)
    | .error (.osError _) => build_loop env fs algorithm track_perms rest acc
    | .error e => .error e

def build_baseline (env : HashEnv) (fs : Node)
    (matcher : String → String → Bool) (paths : List (List String))
    (excludes : List String) (algorithm : String)
    (follow_symlinks ignore_hidden track_perms : Bool) :
    Except PyErr Baseline :=
  build_loop env fs algorithm track_perms
    (iter_files fs matcher paths excludes follow_symlinks ignore_hidden) []

/-- Real file-system name components: nonempty and free of the `/`
separator.  Used where distinct component paths must render to distinct
path strings. -/
def validName (n : String) : Bool := !n.data.isEmpty && !n.data.contains '/'

/-! ## Claim theorem about the exclusion matcher -/

theorem should_exclude_eq (matcher : String → String → Bool)
    (p : List String) (patterns : List String) (roots : List (List String)) :
    should_exclude matcher p patterns roots =
      ((patterns.any fun pat => matcher (baseName p) pat) ||
        (patterns.any fun pat => matcher (pathStr p) pat) ||
        roots.any fun root => isUnder root p &&
          patterns.any fun pat => matcher (relStr root p) pat) := by
  unfold should_exclude
  cases hEmpty : patterns.isEmpty with
  | true =>
    rw [List.isEmpty_iff.mp hEmpty]
    simp
  | false =>
    simp only [hEmpty, Bool.false_eq_true, if_false]
    cases hb : (patterns.any fun pat => matcher (baseName p) pat) <;>
      cases ha : (patterns.any fun pat => matcher (pathStr p) pat) <;>
        simp [hb, ha]

/-- C5: `_should_exclude` returns true iff some pattern matches the
absolute path string, or the base name, or the path relative to some root
the path actually lies under; with an empty pattern list it always returns
false, for every path and roots list. -/
theorem C5_should_exclude_spec (matcher : String → String → Bool)
    (p : List String) (patterns : List String) (roots : List (List String)) :
    (should_exclude matcher p patterns roots = true ↔
      ∃ pat ∈ patterns,
        matcher (pathStr p) pat = true ∨ matcher (baseName p) pat = true ∨
        ∃ root ∈ roots, isUnder root p = true ∧
          matcher (relStr root p) pat = true) ∧
    should_exclude matcher p [] roots = false := by
  refine ⟨?_, by simp [should_exclude]⟩
  rw [should_exclude_eq]
  simp only [Bool.or_eq_true, List.any_eq_true, Bool.and_eq_true]
  constructor
  · rintro ((⟨pat, hpat, hm⟩ | ⟨pat, hpat, hm⟩) | ⟨root, hroot, hu, pat, hpat, hm⟩)
    · exact ⟨pat, hpat, Or.inr (Or.inl hm)⟩
    · exact ⟨pat, hpat, Or.inl hm⟩
    · exact ⟨pat, hpat, Or.inr (Or.inr ⟨root, hroot, hu, hm⟩)⟩
  · rintro ⟨pat, hpat, (hm | hm | ⟨root, hroot, hu, hm⟩)⟩
    · exact Or.inl (Or.inr ⟨pat, hpat, hm⟩)
    · exact Or.inl (Or.inl ⟨pat, hpat, hm⟩)
    · exact Or.inr ⟨root, hroot, hu, pat, hpat, hm⟩

mutual
def validNode : Node → Bool
  | .file _ => true
  | .dir entries => validEntries entries

def validEntries : Entries → Bool
  | .nil => true
  | .cons n child rest => validName n && validNode child && validEntries rest
end

/-! ## Walker lemmas -/

theorem lookup_mem {l : List (String × Node)} {n : String} {c : Node}
    (h : l.lookup n = some c) : (n, c) ∈ l := by
  induction l with
  | nil => simp [List.lookup] at h
  | cons kv rest ih =>
    obtain ⟨k, v⟩ := kv
    rw [List.lookup] at h
    split at h
    · next hk =>
      cases h
      have hkn : n = k := by simpa using hk
      subst hkn
      exact List.mem_cons_self _ _
    · exact List.mem_cons_of_mem _ (ih h)

theorem validEntries_mem : ∀ {es : Entries}, validEntries es = true →
    ∀ nc ∈ es.toList, validName nc.1 = true ∧ validNode nc.2 = true
  | .nil, _, nc, hm => by simp [Entries.toList] at hm
  | .cons n c r, h, nc, hm => by
    rw [validEntries, Bool.and_eq_true, Bool.and_eq_true] at h
    rw [Entries.toList, List.mem_cons] at hm
    rcases hm with rfl | hm
    · exact ⟨h.1.1, h.1.2⟩
    · exact validEntries_mem h.2 nc hm

theorem lookupNode_valid : ∀ {path : List String} {nd nd' : Node},
    validNode nd = true → lookupNode nd path = some nd' →
    validNode nd' = true := by
  intro path
  induction path with
  | nil =>
    intro nd nd' hv h
    rw [lookupNode] at h
    cases h
    exact hv
  | cons n rest ih =>
    intro nd nd' hv h
    cases nd with
    | file d => rw [lookupNode] at h; cases h
    | dir entries =>
      rw [lookupNode] at h
      cases hl : entries.toList.lookup n with
      | none => rw [hl] at h; cases h
      | some child =>
        rw [hl] at h
        have hm := lookup_mem hl
        have hvc := validEntries_mem (by simpa [validNode] using hv) (n, child) hm
        exact ih hvc.2 h

theorem mem_childDirs {ih : Bool} {l : List (String × Node)} {e : String × Node}
    (h : e ∈ childDirs ih l) :
    e ∈ l ∧ (ih = true → startsDot e.1 = false) := by
  unfold childDirs at h
  cases ih with
  | false =>
    simp only [Bool.false_eq_true, if_false, List.mem_filterMap] at h
    obtain ⟨a, ha, he⟩ := h
    constructor
    · cases hn : a.2 with
      | file d => rw [hn] at he; cases he
      | dir es => rw [hn] at he; cases he; exact ha
    · intro hf; cases hf
  | true =>
    rw [if_pos rfl, List.mem_filter] at h
    obtain ⟨hmem, hdot⟩ := h
    rw [List.mem_filterMap] at hmem
    obtain ⟨a, ha, he⟩ := hmem
    constructor
    · cases hn : a.2 with
      | file d => rw [hn] at he; cases he
      | dir es => rw [hn] at he; cases he; exact ha
    · intro _
      simpa using hdot

/-- The fuel `walkNode` supplies is irrelevant as long as it dominates the
tree's size, so `walkNode` is the complete, unbounded traversal. -/
theorem walkNodeAux_fuel_irrelevant {ih : Bool} :
    ∀ {f₁ f₂ : Nat} {path : List String} {nd : Node},
    nodeSize nd ≤ f₁ → nodeSize nd ≤ f₂ →
    walkNodeAux ih f₁ path nd = walkNodeAux ih f₂ path nd := by
  intro f₁
  induction f₁ with
  | zero =>
    intro f₂ path nd h₁ h₂
    have := nodeSize_pos nd
    omega
  | succ f₁ ihf =>
    intro f₂ path nd h₁ h₂
    cases f₂ with
    | zero =>
      have := nodeSize_pos nd
      omega
    | succ f₂ =>
      cases nd with
      | file d => rw [walkNodeAux, walkNodeAux]
      | dir entries =>
        rw [walkNodeAux, walkNodeAux]
        congr 1
        simp only [List.flatMap]
        congr 1
        apply List.map_congr_left
        intro e he
        have hmem := (mem_childDirs he).1
        have hmem' : (e.1, e.2) ∈ entries.toList := by simpa using hmem
        have hlt : nodeSize e.2 < nodeSize (.dir entries) :=
          nodeSize_lt_of_mem hmem'
        exact ihf (by omega) (by omega)

theorem walkNode_eq_aux {ih : Bool} {path : List String} {nd : Node}
    {fuel : Nat} (h : nodeSize nd ≤ fuel) :
    walkNode ih path nd = walkNodeAux ih fuel path nd :=
  walkNodeAux_fuel_irrelevant (le_refl _) h

theorem mem_fileNamesOf {l : List (String × Node)} {f : String}
    (h : f ∈ fileNamesOf l) : ∃ nd, (f, nd) ∈ l := by
  unfold fileNamesOf at h
  rw [List.mem_filterMap] at h
  obtain ⟨a, ha, he⟩ := h
  cases hn : a.2 with
  | file d =>
    rw [hn] at he
    cases he
    exact ⟨a.2, by rwa [← Prod.mk.eta (p := a)] ⟩
  | dir es => rw [hn] at he; cases he

/-- Every `(dirpath, filenames)` tuple of the pruned walk: the dirpath
extends the starting path by a tail of directory names; when hidden
directories are pruned, no tail component starts with a dot; and on a
well-formed tree all tail components and all listed file names are
well-formed names. -/
theorem walkNodeAux_shape {ih : Bool} : ∀ (fuel : Nat) (path : List String)
    (nd : Node) (dp fns : List String),
    (dp, fns) ∈ walkNodeAux ih fuel path nd →
    ∃ tail, dp = path ++ tail ∧
      (ih = true → ∀ c ∈ tail, startsDot c = false) ∧
      (validNode nd = true →
        (∀ c ∈ tail, validName c = true) ∧ ∀ f ∈ fns, validName f = true) := by
  intro fuel
  induction fuel with
  | zero =>
    intro path nd dp fns h
    rw [walkNodeAux] at h
    cases h
  | succ fuel ihf =>
    intro path nd dp fns h
    cases nd with
    | file d => rw [walkNodeAux] at h; cases h
    | dir entries =>
      rw [walkNodeAux, List.mem_cons] at h
      rcases h with heq | hmem
      · have hdp : dp = path := congrArg Prod.fst heq
        have hfns : fns = fileNamesOf entries.toList := congrArg Prod.snd heq
        refine ⟨[], by simp [hdp], by simp, ?_⟩
        intro hv
        refine ⟨by simp, ?_⟩
        intro f hf
        rw [hfns] at hf
        obtain ⟨nd', hnd'⟩ := mem_fileNamesOf hf
        exact (validEntries_mem (by simpa [validNode] using hv) (f, nd') hnd').1
      · rw [List.mem_flatMap] at hmem
        obtain ⟨e, he, hw⟩ := hmem
        obtain ⟨hel, hedot⟩ := mem_childDirs he
        obtain ⟨tail, htail, hhid, hval⟩ := ihf (path ++ [e.1]) e.2 dp fns hw
        refine ⟨e.1 :: tail, by simpa [List.append_assoc] using htail, ?_, ?_⟩
        · intro hih c hc
          rcases List.mem_cons.mp hc with rfl | hc
          · exact hedot hih
          · exact hhid hih c hc
        · intro hv
          have hve := validEntries_mem (by simpa [validNode] using hv) e hel
          obtain ⟨hvt, hvf⟩ := hval hve.2
          refine ⟨?_, hvf⟩
          intro c hc
          rcases List.mem_cons.mp hc with rfl | hc
          · exact hve.1
          · exact hvt c hc

theorem walkNode_shape {ih : Bool} {path : List String} {nd : Node}
    {dp fns : List String} (h : (dp, fns) ∈ walkNode ih path nd) :
    ∃ tail, dp = path ++ tail ∧
      (ih = true → ∀ c ∈ tail, startsDot c = false) ∧
      (validNode nd = true →
        (∀ c ∈ tail, validName c = true) ∧ ∀ f ∈ fns, validName f = true) :=
  walkNodeAux_shape (nodeSize nd) path nd dp fns h

/-- With `ignore_hidden` set, every path the walker yields is free of
hidden components: a file root passes the explicit `_is_hidden` guard, and
a walked file passes the per-file `_is_hidden` filter. -/
theorem mem_iter_files_hidden {fs : Node} {matcher : String → String → Bool}
    {paths : List (List String)} {excludes : List String} {fsym ih : Bool}
    {p : List String}
    (h : p ∈ iter_files fs matcher paths excludes fsym ih) :
    ih = true → is_hidden p = false := by
  intro hih
  subst hih
  unfold iter_files at h
  rw [List.mem_flatMap] at h
  obtain ⟨root, hroot, hb⟩ := h
  split at hb
  · cases hb
  · split at hb
    · next hg =>
      rcases List.mem_singleton.mp hb with rfl
      rw [Bool.and_eq_true] at hg
      simpa using hg.1
    · cases hb
  · rw [List.mem_flatMap] at hb
    obtain ⟨df, hdf, hfm⟩ := hb
    rw [List.mem_filterMap] at hfm
    obtain ⟨fname, hfname, hsome⟩ := hfm
    simp only [] at hsome
    split at hsome
    · cases hsome
    · next hhid =>
      split at hsome
      · cases hsome
      · split at hsome
        · cases hsome
          simpa using hhid
        · cases hsome

/-- On a well-formed tree with well-formed root paths, every component of
every path the walker yields is a well-formed name. -/
theorem mem_iter_files_valid {fs : Node} {matcher : String → String → Bool}
    {paths : List (List String)} {excludes : List String} {fsym ih : Bool}
    {p : List String}
    (hfs : validNode fs = true)
    (hroots : ∀ q ∈ paths, ∀ c ∈ q, validName c = true)
    (h : p ∈ iter_files fs matcher paths excludes fsym ih) :
    ∀ c ∈ p, validName c = true := by
  unfold iter_files at h
  rw [List.mem_flatMap] at h
  obtain ⟨root, hroot, hb⟩ := h
  split at hb
  · cases hb
  · split at hb
    · rcases List.mem_singleton.mp hb with rfl
      exact hroots p hroot
    · cases hb
  · next entries hfsroot =>
    rw [List.mem_flatMap] at hb
    obtain ⟨df, hdf, hfm⟩ := hb
    rw [List.mem_filterMap] at hfm
    obtain ⟨fname, hfname, hsome⟩ := hfm
    have hyield : p = df.1 ++ [fname] := by
      simp only [] at hsome
      split at hsome
      · cases hsome
      · split at hsome
        · cases hsome
        · split at hsome
          · cases hsome; rfl
          · cases hsome
    have hvd : validNode (.dir entries) = true := lookupNode_valid hfs hfsroot
    have hdf' : (df.1, df.2) ∈ walkNode ih root (.dir entries) := by
      simpa using hdf
    obtain ⟨tail, htail, _, hval⟩ := walkNode_shape hdf'
    obtain ⟨hvt, hvf⟩ := hval hvd
    intro c hc
    rw [hyield, htail] at hc
    rcases List.mem_append.mp hc with hc | hc
    · rcases List.mem_append.mp hc with hc | hc
      · exact hroots root hroot c hc
      · exact hvt c hc
    · rcases List.mem_singleton.mp hc with rfl
      exact hvf c hfname

/-- Every directory the walk of `iter_files` enters lies under a configured
root, and with `ignore_hidden` set every component below that root is
non-hidden (the pruning removes hidden names before they are entered). -/
theorem mem_iter_visited {fs : Node} {paths : List (List String)} {ih : Bool}
    {dp : List String} (h : dp ∈ iter_visited fs paths ih) :
    ∃ root ∈ paths, ∃ tail, dp = root ++ tail ∧
      (ih = true → ∀ c ∈ tail, startsDot c = false) := by
  unfold iter_visited at h
  rw [List.mem_flatMap] at h
  obtain ⟨root, hroot, hb⟩ := h
  split at hb
  · next entries hfsroot =>
    rw [List.mem_map] at hb
    obtain ⟨df, hdf, heq⟩ := hb
    have hdf' : (df.1, df.2) ∈ walkNode ih root (.dir entries) := by
      simpa using hdf
    obtain ⟨tail, htail, hhid, _⟩ := walkNode_shape hdf'
    subst heq
    exact ⟨root, hroot, tail, htail, hhid⟩
  · cases hb

/-! ## Injectivity of path rendering on well-formed names -/

theorem joinChars_shape (l : List (List Char)) :
    joinChars l = [] ∨ ∃ t, joinChars l = '/' :: t := by
  cases l with
  | nil => exact Or.inl rfl
  | cons c cs => exact Or.inr ⟨c ++ joinChars cs, rfl⟩

theorem append_eq_of_slashFree {a b j₁ j₂ : List Char}
    (ha : '/' ∉ a) (hb : '/' ∉ b)
    (h₁ : j₁ = [] ∨ ∃ t, j₁ = '/' :: t) (h₂ : j₂ = [] ∨ ∃ t, j₂ = '/' :: t)
    (he : a ++ j₁ = b ++ j₂) : a = b := by
  induction a generalizing b with
  | nil =>
    cases b with
    | nil => rfl
    | cons y b' =>
      exfalso
      rw [List.nil_append] at he
      rcases h₁ with rfl | ⟨t, rfl⟩
      · cases he
      · have hy : y = '/' := by
          have := congrArg (fun l => l.head?) he
          simpa using this.symm
        exact hb (hy ▸ List.mem_cons_self _ _)
  | cons x a' iha =>
    cases b with
    | nil =>
      exfalso
      rw [List.nil_append] at he
      rcases h₂ with rfl | ⟨t, rfl⟩
      · cases he
      · have hx : x = '/' := by
          have := congrArg (fun l => l.head?) he
          simpa using this
        exact ha (hx ▸ List.mem_cons_self _ _)
    | cons y b' =>
      rw [List.cons_append, List.cons_append] at he
      injection he with hxy he'
      have hrec := iha (fun hm => ha (List.mem_cons_of_mem _ hm))
        (fun hm => hb (List.mem_cons_of_mem _ hm)) he'
      rw [hxy, hrec]

theorem joinChars_inj : ∀ {l₁ l₂ : List (List Char)},
    (∀ c ∈ l₁, '/' ∉ c) → (∀ c ∈ l₂, '/' ∉ c) →
    joinChars l₁ = joinChars l₂ → l₁ = l₂ := by
  intro l₁
  induction l₁ with
  | nil =>
    intro l₂ _ _ he
    cases l₂ with
    | nil => rfl
    | cons d ds => cases he
  | cons c cs ih =>
    intro l₂ h₁ h₂ he
    cases l₂ with
    | nil => cases he
    | cons d ds =>
      rw [joinChars, joinChars] at he
      injection he with _ he'
      have hcd : c = d := append_eq_of_slashFree
        (h₁ c (List.mem_cons_self _ _)) (h₂ d (List.mem_cons_self _ _))
        (joinChars_shape cs) (joinChars_shape ds) he'
      subst hcd
      have hjj : joinChars cs = joinChars ds := List.append_cancel_left he'
      rw [ih (fun c hc => h₁ c (List.mem_cons_of_mem _ hc))
        (fun c hc => h₂ c (List.mem_cons_of_mem _ hc)) hjj]

theorem strData_inj {a b : String} (h : a.data = b.data) : a = b :=
  congrArg String.mk h

theorem validName_slashFree {n : String} (h : validName n = true) :
    '/' ∉ n.data := by
  unfold validName at h
  rw [Bool.and_eq_true] at h
  intro hm
  have h2 := h.2
  rw [Bool.not_eq_true'] at h2
  have : n.data.contains '/' = true := List.elem_iff.mpr hm
  rw [this] at h2
  cases h2

theorem pathStr_inj {p q : List String}
    (hp : ∀ c ∈ p, validName c = true) (hq : ∀ c ∈ q, validName c = true)
    (h : pathStr p = pathStr q) : p = q := by
  have hd : joinChars (p.map String.data) = joinChars (q.map String.data) :=
    congrArg String.data h
  have hmaps : p.map String.data = q.map String.data := by
    refine joinChars_inj ?_ ?_ hd
    · intro c hc
      rw [List.mem_map] at hc
      obtain ⟨x, hx, rfl⟩ := hc
      exact validName_slashFree (hp x hx)
    · intro c hc
      rw [List.mem_map] at hc
      obtain ⟨x, hx, rfl⟩ := hc
      exact validName_slashFree (hq x hx)
  exact List.map_injective_iff.mpr (fun a b hab => strData_inj hab) hmaps

/-! ## Builder lemmas -/

theorem mem_keysB_dictInsert {b : Baseline} {k m : String} {v : FileInfo} :
    m ∈ keysB (dictInsert b k v) ↔ m ∈ keysB b ∨ m = k := by
  unfold dictInsert
  split
  · next hany =>
    have hfst : ∀ kv : String × FileInfo,
        ((if kv.1 == k then (k, v) else kv).1) = kv.1 := by
      intro kv
      split
      · next hkv => exact (by simpa using hkv : kv.1 = k).symm
      · rfl
    have hkeys : keysB (b.map fun kv => if kv.1 == k then (k, v) else kv) =
        keysB b := by
      unfold keysB
      rw [List.map_map]
      exact List.map_congr_left fun kv _ => hfst kv
    rw [hkeys]
    have hkmem : k ∈ keysB b := by
      rw [List.any_eq_true] at hany
      obtain ⟨kv, hkv, hbeq⟩ := hany
      have : kv.1 = k := by simpa using hbeq
      exact this ▸ List.mem_map_of_mem Prod.fst hkv
    constructor
    · exact Or.inl
    · rintro (hm | rfl)
      · exact hm
      · exact hkmem
  · unfold keysB
    rw [List.map_append]
    simp

/-- The fingerprint of this exact path will get past `stat` and `open`:
the path resolves to an unfaulted regular file.  (The digest-name check is
separate.) -/
def statOk (fs : Node) (p : List String) : Bool :=
  match lookupNode fs p with
  | some (.file d) => d.fault.isNone
  | _ => false

theorem from_path_ok_of_supported {env : HashEnv} {fs : Node}
    {p : List String} {algorithm : String} {tp : Bool}
    (hsupp : env.supported.contains algorithm = true)
    (hstat : statOk fs p = true) :
    ∃ d, lookupNode fs p = some (.file d) ∧ d.fault = none ∧
      FileInfo.from_path env fs p algorithm tp =
        .ok { hash := env.digest algorithm d.content,
              size := d.content.length, mtime := d.mtime,
              mode := if tp then some (d.st_mode % 4096) else none } := by
  unfold statOk at hstat
  split at hstat
  · next d hd =>
    have hfault : d.fault = none := Option.isNone_iff_eq_none.mp hstat
    refine ⟨d, hd, hfault, ?_⟩
    have hmem : algorithm ∈ env.supported := by simpa using hsupp
    simp [FileInfo.from_path, hash_file, hd, hfault, hmem]
  · cases hstat

theorem from_path_osError_of_not_statOk {env : HashEnv} {fs : Node}
    {p : List String} {algorithm : String} {tp : Bool}
    (hstat : statOk fs p = false) :
    ∃ kind, FileInfo.from_path env fs p algorithm tp =
      .error (.osError kind) := by
  unfold statOk at hstat
  unfold FileInfo.from_path
  split at hstat
  · next d hd =>
    cases hkind : d.fault with
    | none =>
      rw [hkind] at hstat
      cases hstat
    | some kind =>
      simp only [hkind]
      exact ⟨kind, rfl⟩
  · exact ⟨.notFound, rfl⟩

theorem hash_file_valueError_of_unsupported {env : HashEnv} {fs : Node}
    {p : List String} {algorithm : String}
    (halg : env.supported.contains algorithm = false) :
    hash_file env fs p algorithm =
      .error (.valueError ("Unsupported hash algorithm: " ++ algorithm)) := by
  unfold hash_file
  rw [halg]
  simp

theorem from_path_valueError_of_unsupported {env : HashEnv} {fs : Node}
    {p : List String} {algorithm : String} {tp : Bool}
    (halg : env.supported.contains algorithm = false)
    (hstat : statOk fs p = true) :
    FileInfo.from_path env fs p algorithm tp =
      .error (.valueError ("Unsupported hash algorithm: " ++ algorithm)) := by
  unfold statOk at hstat
  split at hstat
  · next d hd =>
    have hfault : d.fault = none := Option.isNone_iff_eq_none.mp hstat
    have hmem : algorithm ∉ env.supported := by simpa using halg
    simp [FileInfo.from_path, hash_file, hd, hfault, hmem]
  · cases hstat

theorem from_path_not_ok_of_unsupported {env : HashEnv} {fs : Node}
    {p : List String} {algorithm : String} {tp : Bool}
    (halg : env.supported.contains algorithm = false) :
    ∀ r, FileInfo.from_path env fs p algorithm tp ≠ .ok r := by
  intro r hcon
  cases hstat : statOk fs p with
  | true => rw [from_path_valueError_of_unsupported halg hstat] at hcon; cases hcon
  | false =>
    obtain ⟨kind, hk⟩ := @from_path_osError_of_not_statOk env fs p algorithm tp hstat
    rw [hk] at hcon
    cases hcon

theorem build_loop_keys {env : HashEnv} {fs : Node} {algorithm : String}
    {tp : Bool} : ∀ {l : List (List String)} {acc b : Baseline},
    build_loop env fs algorithm tp l acc = .ok b →
    ∀ k ∈ keysB b, k ∈ keysB acc ∨ ∃ p ∈ l, pathStr p = k := by
  intro l
  induction l with
  | nil =>
    intro acc b h k hk
    cases h
    exact Or.inl hk
  | cons p rest ih =>
    intro acc b h k hk
    rw [build_loop] at h
    split at h
    · rcases ih h k hk with hacc | ⟨q, hq, hpq⟩
      · rcases mem_keysB_dictInsert.mp hacc with h' | rfl
        · exact Or.inl h'
        · exact Or.inr ⟨p, List.mem_cons_self _ _, rfl⟩
      · exact Or.inr ⟨q, List.mem_cons_of_mem _ hq, hpq⟩
    · rcases ih h k hk with hacc | ⟨q, hq, hpq⟩
      · exact Or.inl hacc
      · exact Or.inr ⟨q, List.mem_cons_of_mem _ hq, hpq⟩
    · cases h

theorem build_loop_ok_of_supported {env : HashEnv} {fs : Node}
    {algorithm : String} {tp : Bool}
    (hsupp : env.supported.contains algorithm = true) :
    ∀ (l : List (List String)) (acc : Baseline),
    ∃ b, build_loop env fs algorithm tp l acc = .ok b ∧
      ∀ k, k ∈ keysB b ↔
        (k ∈ keysB acc ∨ ∃ p ∈ l, statOk fs p = true ∧ pathStr p = k) := by
  intro l
  induction l with
  | nil =>
    intro acc
    exact ⟨acc, rfl, by simp⟩
  | cons p rest ih =>
    intro acc
    cases hstat : statOk fs p with
    | true =>
      obtain ⟨d, hd, hfault, hfp⟩ :=
        @from_path_ok_of_supported env fs p algorithm tp hsupp hstat
      obtain ⟨b, hb, hkeys⟩ := ih (dictInsert acc (pathStr p)
        { hash := env.digest algorithm d.content,
          size := d.content.length, mtime := d.mtime,
          mode := if tp then some (d.st_mode % 4096) else none })
      refine ⟨b, ?_, ?_⟩
      · rw [build_loop, hfp]
        exact hb
      · intro k
        rw [hkeys k, mem_keysB_dictInsert]
        simp only [List.mem_cons]
        constructor
        · rintro ((hacc | rfl) | ⟨q, hq, hsq, hpk⟩)
          · exact Or.inl hacc
          · exact Or.inr ⟨p, Or.inl rfl, hstat, rfl⟩
          · exact Or.inr ⟨q, Or.inr hq, hsq, hpk⟩
        · rintro (hacc | ⟨q, (rfl | hq), hsq, hpk⟩)
          · exact Or.inl (Or.inl hacc)
          · exact Or.inl (Or.inr hpk.symm)
          · exact Or.inr ⟨q, hq, hsq, hpk⟩
    | false =>
      obtain ⟨kind, hfp⟩ :=
        @from_path_osError_of_not_statOk env fs p algorithm tp hstat
      obtain ⟨b, hb, hkeys⟩ := ih acc
      refine ⟨b, ?_, ?_⟩
      · rw [build_loop, hfp]
        exact hb
      · intro k
        rw [hkeys k]
        simp only [List.mem_cons]
        constructor
        · rintro (hacc | ⟨q, hq, hsq, hpk⟩)
          · exact Or.inl hacc
          · exact Or.inr ⟨q, Or.inr hq, hsq, hpk⟩
        · rintro (hacc | ⟨q, (rfl | hq), hsq, hpk⟩)
          · exact Or.inl hacc
          · rw [hstat] at hsq
            cases hsq
          · exact Or.inr ⟨q, hq, hsq, hpk⟩

theorem build_loop_error_of_unsupported {env : HashEnv} {fs : Node}
    {algorithm : String} {tp : Bool}
    (halg : env.supported.contains algorithm = false) :
    ∀ {l : List (List String)} {acc : Baseline},
    (∃ p ∈ l, statOk fs p = true) →
    build_loop env fs algorithm tp l acc =
      .error (.valueError ("Unsupported hash algorithm: " ++ algorithm)) := by
  intro l
  induction l with
  | nil =>
    rintro acc ⟨p, hp, _⟩
    cases hp
  | cons p rest ih =>
    rintro acc ⟨q, hq, hstat⟩
    cases hps : statOk fs p with
    | true =>
      have hfp := @from_path_valueError_of_unsupported env fs p algorithm tp halg hps
      rw [build_loop, hfp]
    | false =>
      obtain ⟨kind, hfp⟩ :=
        @from_path_osError_of_not_statOk env fs p algorithm tp hps
      rw [build_loop, hfp]
      apply ih
      rcases List.mem_cons.mp hq with rfl | hq'
      · rw [hps] at hstat
        cases hstat
      · exact ⟨q, hq', hstat⟩

/-! ## Concrete objects used by the closed instances below -/

/-- A stand-in digest for the environment: total, deterministic, and
injective enough for the examples. -/
def exDigest : String → List Nat → String :=
  fun _ c => ⟨c.map fun n => Char.ofNat (65 + n % 26)⟩

def exEnv : HashEnv := ⟨["sha256"], exDigest⟩

def exMatcher : String → String → Bool := fun s pat => s == pat

def exFile (b : Nat) : Node := .file ⟨[b], 0, 420, none⟩

def exFs : Node := .dir (.ofList
  [("a", .dir (.ofList
      [("x.txt", exFile 1),
       (".hid", .dir (.ofList [("y.txt", exFile 2)])),
       ("sub", .dir (.ofList [("z.txt", exFile 3)]))])),
   ("bad.txt", .file ⟨[9], 0, 420, some .permission⟩),
   ("top.txt", exFile 4)])

def exFsHiddenRoot : Node := .dir (.ofList
  [(".h", .dir (.ofList
      [("sub", .dir (.ofList [("g.txt", exFile 5)])),
       ("f.txt", exFile 6)]))])

/-! ## Claim theorems about the walker and the builder -/

/-- C2: with an algorithm name the digest table does not support,
`hash_file` fails with the typed `ValueError`, `FileInfo.from_path` never
returns a record, and `build_baseline` does not swallow the failure the way
it swallows per-file I/O errors: as soon as one yielded file gets past the
stat (so that the digest check is reached), the `ValueError` propagates
instead of the file being omitted. -/
theorem C2_unsupported_algorithm (env : HashEnv) (fs : Node)
    (matcher : String → String → Bool) (algorithm : String)
    (halg : env.supported.contains algorithm = false) :
    (∀ p, hash_file env fs p algorithm =
      .error (.valueError ("Unsupported hash algorithm: " ++ algorithm))) ∧
    (∀ p tp r, FileInfo.from_path env fs p algorithm tp ≠ .ok r) ∧
    (∀ paths excludes fsym ih tp,
      (∃ p ∈ iter_files fs matcher paths excludes fsym ih,
        statOk fs p = true) →
      build_baseline env fs matcher paths excludes algorithm fsym ih tp =
        .error (.valueError ("Unsupported hash algorithm: " ++ algorithm))) := by
  refine ⟨?_, ?_, ?_⟩
  · intro p
    exact hash_file_valueError_of_unsupported halg
  · intro p tp r
    exact from_path_not_ok_of_unsupported halg r
  · intro paths excludes fsym ih tp hex
    unfold build_baseline
    exact build_loop_error_of_unsupported halg hex

/-- C2 witness: a concrete filesystem scanned under the unsupported name
`"md5"`: the build propagates the `ValueError` although an eligible file
exists. -/
theorem C2_unsupported_algorithm_witness :
    build_baseline exEnv exFs exMatcher [["a"]] [] "md5" false true false =
      .error (.valueError "Unsupported hash algorithm: md5") :=
  (C2_unsupported_algorithm exEnv exFs exMatcher "md5" (by decide)).2.2
    [["a"]] [] false true false ⟨["a", "x.txt"], by decide, by decide⟩

/-- C7: with a supported algorithm, the build always returns normally: a
per-file fault (permission denied, vanished file, generic OS error during
`stat`/`open`) only omits that file, every fingerprintable yielded file is
present in the result, and nothing else is. -/
theorem C7_per_file_errors_skipped (env : HashEnv) (fs : Node)
    (matcher : String → String → Bool) (paths : List (List String))
    (excludes : List String) (algorithm : String) (fsym ih tp : Bool)
    (hsupp : env.supported.contains algorithm = true)
    (hfs : validNode fs = true)
    (hroots : ∀ q ∈ paths, ∀ c ∈ q, validName c = true) :
    ∃ b, build_baseline env fs matcher paths excludes algorithm fsym ih tp =
        .ok b ∧
      (∀ p ∈ iter_files fs matcher paths excludes fsym ih,
        statOk fs p = true → pathStr p ∈ keysB b) ∧
      (∀ p ∈ iter_files fs matcher paths excludes fsym ih,
        statOk fs p = false → pathStr p ∉ keysB b) ∧
      (∀ k ∈ keysB b, ∃ p ∈ iter_files fs matcher paths excludes fsym ih,
        statOk fs p = true ∧ pathStr p = k) := by
  obtain ⟨b, hb, hkeys⟩ := build_loop_ok_of_supported hsupp
    (iter_files fs matcher paths excludes fsym ih) []
  refine ⟨b, hb, ?_, ?_, ?_⟩
  · intro p hp hstat
    exact (hkeys _).mpr (Or.inr ⟨p, hp, hstat, rfl⟩)
  · intro p hp hstat hmem
    rcases (hkeys _).mp hmem with hacc | ⟨q, hq, hsq, hqp⟩
    · simp [keysB] at hacc
    · have hqep : q = p := pathStr_inj (mem_iter_files_valid hfs hroots hq)
        (mem_iter_files_valid hfs hroots hp) hqp
      rw [hqep, hstat] at hsq
      cases hsq
  · intro k hk
    rcases (hkeys k).mp hk with hacc | ⟨q, hq, hsq, hqk⟩
    · simp [keysB] at hacc
    · exact ⟨q, hq, hsq, hqk⟩

/-- C7 witness: scanning a concrete tree containing one permission-faulted
file: the build returns normally, keeps every fingerprintable file and
omits the faulted one. -/
theorem C7_per_file_errors_skipped_witness :
    ∃ b, build_baseline exEnv exFs exMatcher [[]] [] "sha256" false true
        false = .ok b ∧
      (∀ p ∈ iter_files exFs exMatcher [[]] [] false true,
        statOk exFs p = true → pathStr p ∈ keysB b) ∧
      (∀ p ∈ iter_files exFs exMatcher [[]] [] false true,
        statOk exFs p = false → pathStr p ∉ keysB b) ∧
      (∀ k ∈ keysB b, ∃ p ∈ iter_files exFs exMatcher [[]] [] false true,
        statOk exFs p = true ∧ pathStr p = k) :=
  C7_per_file_errors_skipped exEnv exFs exMatcher [[]] [] "sha256" false
    true false (by decide) (by decide) (by decide)

/-- C6 (amended): with `ignore_hidden` true, no path containing a
hidden-marked segment appears in the built baseline (on a well-formed tree
with well-formed root paths); and hidden directory names found during the
traversal are pruned from the recursion list before being entered, so every
visited directory extends some configured root by non-hidden components
only.  (The original claim said the walk never descends into any hidden
directory: a configured root that is itself hidden, or lies under a hidden
directory, is still walked — all of its files are filtered from the
output — so the claim fails for such a configuration.) -/
theorem C6_hidden_pruning (env : HashEnv) (fs : Node)
    (matcher : String → String → Bool) (paths : List (List String))
    (excludes : List String) (algorithm : String) (fsym tp : Bool)
    (b : Baseline)
    (hfs : validNode fs = true)
    (hroots : ∀ q ∈ paths, ∀ c ∈ q, validName c = true)
    (hok : build_baseline env fs matcher paths excludes algorithm fsym true
      tp = .ok b) :
    (∀ q, is_hidden q = true → (∀ c ∈ q, validName c = true) →
      pathStr q ∉ keysB b) ∧
    (∀ dp ∈ iter_visited fs paths true, ∃ root ∈ paths, ∃ tail,
      dp = root ++ tail ∧ ∀ c ∈ tail, startsDot c = false) := by
  constructor
  · intro q hqhid hqval hqmem
    unfold build_baseline at hok
    rcases build_loop_keys hok _ hqmem with hacc | ⟨p, hp, hpq⟩
    · simp [keysB] at hacc
    · have hpeq : p = q := pathStr_inj (mem_iter_files_valid hfs hroots hp)
        hqval hpq
      have hphid := mem_iter_files_hidden hp rfl
      rw [hpeq, hqhid] at hphid
      cases hphid
  · intro dp hdp
    obtain ⟨root, hroot, tail, htail, hhid⟩ := mem_iter_visited hdp
    exact ⟨root, hroot, tail, htail, hhid rfl⟩

/-- C6 witness: the amended theorem at a concrete configuration: the hidden
file of the example tree is absent from the baseline, and the visited
directories extend the root by non-hidden names. -/
theorem C6_hidden_pruning_witness :
    (pathStr ["a", ".hid", "y.txt"] ∉
      keysB [(pathStr ["a", "x.txt"], ⟨"B", 1, 0, none⟩),
        (pathStr ["a", "sub", "z.txt"], ⟨"D", 1, 0, none⟩)]) ∧
    (∃ root ∈ [["a"]], ∃ tail, ["a", "sub"] = root ++ tail ∧
      ∀ c ∈ tail, startsDot c = false) :=
  ⟨(C6_hidden_pruning exEnv exFs exMatcher [["a"]] [] "sha256" false false
      [(pathStr ["a", "x.txt"], ⟨"B", 1, 0, none⟩),
        (pathStr ["a", "sub", "z.txt"], ⟨"D", 1, 0, none⟩)]
      (by decide) (by decide) (by decide)).1
      ["a", ".hid", "y.txt"] (by decide) (by decide),
    (C6_hidden_pruning exEnv exFs exMatcher [["a"]] [] "sha256" false false
      [(pathStr ["a", "x.txt"], ⟨"B", 1, 0, none⟩),
        (pathStr ["a", "sub", "z.txt"], ⟨"D", 1, 0, none⟩)]
      (by decide) (by decide) (by decide)).2
      ["a", "sub"] (by decide)⟩

/-- C6 counterexample: the claim as frozen is false for a configuration
whose root is itself hidden: `os.walk` is invoked on the hidden root, so
the walk does enter a hidden directory (and visits directories below it) —
pruning applies only to directory names met during the traversal. -/
theorem C6_counterexample :
    [".h", "sub"] ∈ iter_visited exFsHiddenRoot [[".h"]] true ∧
    is_hidden [".h", "sub"] = true := by
  decide

/-- C9: the hidden test applies to every component of the resolved path,
including those of the root itself: with `ignore_hidden` true, a root that
is a regular file whose resolved path contains a dot-prefixed component is
never yielded by `iter_files` and never appears in a built baseline, even
when its own base name is not dot-prefixed. -/
theorem C9_hidden_file_root (env : HashEnv) (fs : Node)
    (matcher : String → String → Bool) (paths : List (List String))
    (excludes : List String) (algorithm : String) (fsym tp : Bool)
    (b : Baseline) (r : List String) (d : FileData)
    (hr : r ∈ paths) (_hfile : lookupNode fs r = some (.file d))
    (hhid : is_hidden r = true)
    (hfs : validNode fs = true)
    (hroots : ∀ q ∈ paths, ∀ c ∈ q, validName c = true)
    (hok : build_baseline env fs matcher paths excludes algorithm fsym true
      tp = .ok b) :
    r ∉ iter_files fs matcher paths excludes fsym true ∧
    pathStr r ∉ keysB b := by
  constructor
  · intro hmem
    have hfalse := mem_iter_files_hidden hmem rfl
    rw [hhid] at hfalse
    cases hfalse
  · intro hqmem
    unfold build_baseline at hok
    rcases build_loop_keys hok _ hqmem with hacc | ⟨p, hp, hpq⟩
    · simp [keysB] at hacc
    · have hpeq : p = r := pathStr_inj (mem_iter_files_valid hfs hroots hp)
        (hroots r hr) hpq
      have hphid := mem_iter_files_hidden hp rfl
      rw [hpeq, hhid] at hphid
      cases hphid

/-- C9 witness: a configuration whose only root is the example tree's
regular file `a/.hid/y.txt` (base name not dot-prefixed, but lying under a
dot directory): it is not yielded and the built baseline is empty. -/
theorem C9_hidden_file_root_witness :
    ["a", ".hid", "y.txt"] ∉
      iter_files exFs exMatcher [["a", ".hid", "y.txt"]] [] false true ∧
    pathStr ["a", ".hid", "y.txt"] ∉ keysB [] :=
  C9_hidden_file_root exEnv exFs exMatcher [["a", ".hid", "y.txt"]] []
    "sha256" false false [] ["a", ".hid", "y.txt"] ⟨[2], 0, 420, none⟩
    (by decide) rfl (by decide) (by decide) (by decide) (by decide)

end Fim
